import Mathlib

/-!
Verification of the Nova media-player front-end (the `Player` component):
a shallow embedding of its SRT subtitle parser, chapter navigation,
overlay-panel logic, media-error handler, subtitle track selection and
session-teardown resource handling, together with theorems settling the
specification claims about them.

Strings are modelled as `List Char` (`Str`); JavaScript string operations
(`split`, `trim`, `includes`, `replace`, `Number`, `parseInt`) are embedded
as executable functions on `Str`.  JavaScript numbers are modelled as `ℚ`
(the values arising here are exact in binary floating point or are compared
only by order, so `ℚ` is faithful), with `Option` as NaN.
-/

namespace Nova

/-- Strings as lists of characters. -/
abbrev Str := List Char

/-- `startsWith pat s`: `pat` is a prefix of `s`. -/
def startsWith : Str → Str → Bool
  | [], _ => true
  | _ :: _, [] => false
  | p :: ps, c :: cs => p = c && startsWith ps cs

/-- JavaScript `s.includes(sep)`: `sep` occurs as a contiguous substring of `s`. -/
def containsSub (sep : Str) : Str → Bool
  | [] => startsWith sep []
  | c :: rest => startsWith sep (c :: rest) || containsSub sep rest

/-- JavaScript whitespace (the ASCII fragment that can occur in the player's inputs). -/
def isWS (c : Char) : Bool := c = ' ' || c = '\t' || c = '\n' || c = '\r'

/-- JavaScript `s.trim()`. -/
def trimStr (s : Str) : Str := ((s.dropWhile isWS).reverse.dropWhile isWS).reverse

/-- Split on every character satisfying `p`; models JavaScript
`s.split(regex)` for a single-character class (and `s.split(c)` for one
character).  Always returns a non-empty list of pieces. -/
def splitOnPred (p : Char → Bool) : Str → List Str
  | [] => [[]]
  | c :: rest =>
    if p c then [] :: splitOnPred p rest
    else
      match splitOnPred p rest with
      | [] => [[c]]
      | r :: rs => (c :: r) :: rs

/-- JavaScript `s.split(sep)` for a two-character separator `[x, y]`
(leftmost, non-overlapping). -/
def splitOn2 (x y : Char) : Str → List Str
  | a :: b :: rest =>
    if a = x ∧ b = y then [] :: splitOn2 x y rest
    else
      match splitOn2 x y (b :: rest) with
      | [] => [[a]]
      | r :: rs => (a :: r) :: rs
  | [c] => [[c]]
  | [] => [[]]

/-- JavaScript `s.split(sep)` for a three-character separator `[x, y, z]`
(leftmost, non-overlapping). -/
def splitOn3 (x y z : Char) : Str → List Str
  | a :: b :: c :: rest =>
    if a = x ∧ b = y ∧ c = z then [] :: splitOn3 x y z rest
    else
      match splitOn3 x y z (b :: c :: rest) with
      | [] => [[a]]
      | r :: rs => (a :: r) :: rs
  | [a, b] => [[a, b]]
  | [c] => [[c]]
  | [] => [[]]

/-- JavaScript `s.split('\n\n')`. -/
def splitOnNN : Str → List Str := splitOn2 '\n' '\n'

/-- JavaScript `s.split('\r\n')`. -/
def splitOnCRLF : Str → List Str := splitOn2 '\r' '\n'

/-- JavaScript `s.split('-->')`. -/
def splitOnArrow : Str → List Str := splitOn3 '-' '-' '>'

/-- `content.replace(/\r\n/g, '\n').replace(/\r/g, '\n')` from `parseSRT`:
every CRLF becomes LF, then every remaining CR becomes LF. -/
def normalizeNewlines (s : Str) : Str :=
  (List.intercalate ['\n'] (splitOnCRLF s)).map (fun c => if c = '\r' then '\n' else c)

/-- Decimal digit test (JavaScript `\d`). -/
def isDigitChar (c : Char) : Bool := 48 ≤ c.toNat && c.toNat ≤ 57

/-- Value of a digit string read left to right (no sign, no validation). -/
def digitsToNat (s : Str) : ℕ := s.foldl (fun a c => a * 10 + (c.toNat - 48)) 0

/-- The decimal digit character for `d < 10`. -/
def digitChar : ℕ → Char
  | 0 => '0' | 1 => '1' | 2 => '2' | 3 => '3' | 4 => '4'
  | 5 => '5' | 6 => '6' | 7 => '7' | 8 => '8' | _ => '9'

/-- Decimal rendering of a natural number (fuel-indexed so that it is
structurally recursive and kernel-reducible; the fuel `n + 1` always
suffices). -/
def natDigitsAux : ℕ → ℕ → Str
  | 0, _ => []
  | fuel + 1, n => if n < 10 then [digitChar n] else natDigitsAux fuel (n / 10) ++ [digitChar (n % 10)]

/-- Decimal rendering of a natural number. -/
def natDigits (n : ℕ) : Str := natDigitsAux (n + 1) n

/-- Two-digit zero-padded rendering (`MM`, `SS`). -/
def pad2 (n : ℕ) : Str := if n < 10 then '0' :: natDigits n else natDigits n

/-- Three-digit zero-padded rendering (`mmm`). -/
def pad3 (n : ℕ) : Str :=
  if n < 10 then '0' :: '0' :: natDigits n
  else if n < 100 then '0' :: natDigits n
  else natDigits n

/-- JavaScript `Number(s)` on the decimal fragment: leading/trailing
whitespace is ignored, the empty string is `0`, `[sign] digits [. digits]`
is its value, anything else is NaN (`none`).  (Hex, exponent and
`Infinity` forms never arise from the player's inputs.) -/
def jsNumber (s : Str) : Option ℚ :=
  let t := trimStr s
  if t.isEmpty then some 0
  else
    let neg : Bool := t.head? = some '-'
    let signed : Bool := neg || t.head? = some '+'
    let u : Str := if signed then t.tail else t
    let sign : ℚ := if neg then -1 else 1
    match splitOnPred (fun c => c = '.') u with
    | [intPart] =>
      if intPart ≠ [] ∧ intPart.all isDigitChar then some (sign * digitsToNat intPart) else none
    | [intPart, fracPart] =>
      if (intPart ≠ [] ∨ fracPart ≠ []) ∧ intPart.all isDigitChar ∧ fracPart.all isDigitChar
      then some (sign * ((digitsToNat intPart : ℚ) + (digitsToNat fracPart : ℚ) / 10 ^ fracPart.length))
      else none
    | _ => none

/-- JavaScript `parseInt(s, 10)`: skip leading whitespace, optional sign,
take the maximal leading run of digits; NaN (`none`) when there is none. -/
def jsParseInt (s : Str) : Option ℤ :=
  let t := s.dropWhile isWS
  let neg : Bool := t.head? = some '-'
  let signed : Bool := neg || t.head? = some '+'
  let u : Str := if signed then t.tail else t
  let ds := u.takeWhile isDigitChar
  if ds.isEmpty then none else some ((if neg then -1 else 1) * digitsToNat ds)

/-- A parsed subtitle cue (times in seconds). -/
structure SubtitleCue where
  start : ℚ
  stop : ℚ
  text : Str
deriving DecidableEq, Repr

/-- `parseTime` from `parseSRT`: `H:MM:SS{,|.}mmm` → seconds.  A falsy
(empty/undefined) argument is `0`; otherwise split once on `[,.]`, split
the first piece on `:` into `[h, m, s]` via `Number` (missing components
are NaN), and read the milliseconds with `parseInt(msStr || '0', 10)`.
`none` models a NaN result. -/
def parseTime (timeStr : Str) : Option ℚ :=
  if timeStr.isEmpty then some 0
  else
    let parts := splitOnPred (fun c => c = ',' || c = '.') timeStr
    let hmsParts := splitOnPred (fun c => c = ':') (parts.headD [])
    let nums := hmsParts.map jsNumber
    let h? := (nums.get? 0).getD none
    let m? := (nums.get? 1).getD none
    let s? := (nums.get? 2).getD none
    let msArg : Str :=
      match parts.get? 1 with
      | none => ['0']
      | some [] => ['0']
      | some (c :: cs) => c :: cs
    match h?, m?, s?, jsParseInt msArg with
    | some h, some m, some s, some ms => some (h * 3600 + m * 60 + s + (ms : ℚ) / 1000)
    | _, _, _, _ => none

/-- The lines of one subtitle block: trim the block, split on `'\n'`. -/
def blockLines (block : Str) : List Str := splitOnPred (fun c => c = '\n') (trimStr block)

/-- Index of the time-range line in a block's lines: `1` when the first
line is purely numeric (an SRT index) and the second contains `-->`,
else `0`. -/
def blockTimeIndex (lines : List Str) : ℕ :=
  if (lines.headD []) ≠ [] ∧ (lines.headD []).all isDigitChar
     ∧ containsSub ['-', '-', '>'] (lines.getD 1 []) = true
  then 1 else 0

/-- The two sides of the time-range line: split on `-->`, trim each. -/
def timeLineSides (timeLine : Str) : List Str := (splitOnArrow timeLine).map trimStr

/-- The block's time-range line (`lines[timeIndex]`). -/
def blockTimeLine (block : Str) : Str :=
  (blockLines block).getD (blockTimeIndex (blockLines block)) []

/-- The trimmed left side of the block's time-range line (`startStr`). -/
def blockStartStr (block : Str) : Str := (timeLineSides (blockTimeLine block)).getD 0 []

/-- The trimmed right side of the block's time-range line (`endStr`). -/
def blockEndStr (block : Str) : Str := (timeLineSides (blockTimeLine block)).getD 1 []

/-- Strip one markup tag at the start of `rest` (the part after a `<`),
per the regex `<\/?[^>]+(>|$)`: optional `/`, at least one non-`>`
character, then `>` or end of string; `/` may instead be taken by `[^>]+`
(regex backtracking).  Returns the remainder after the tag, or `none`. -/
def tagMatch (rest : Str) : Option Str :=
  let tryBody : Str → Option Str := fun r =>
    let body := r.takeWhile (fun c => c ≠ '>')
    if body.isEmpty then none
    else
      match r.dropWhile (fun c => c ≠ '>') with
      | [] => some []
      | _ :: tail => some tail
  match rest with
  | '/' :: r2 =>
    match tryBody r2 with
    | some t => some t
    | none => tryBody rest
  | _ => tryBody rest

/-- `text.replace(/<\/?[^>]+(>|$)/g, "")` (fuel-indexed for structural
recursion; `s.length` fuel always suffices since each step consumes at
least one character). -/
def stripTagsAux : ℕ → Str → Str
  | 0, s => s
  | _ + 1, [] => []
  | fuel + 1, c :: rest =>
    if c = '<' then
      match tagMatch rest with
      | some tail => stripTagsAux fuel tail
      | none => c :: stripTagsAux fuel rest
    else c :: stripTagsAux fuel rest

/-- Strip HTML-like markup tags, as `parseSRT` does to cue text. -/
def stripTags (s : Str) : Str := stripTagsAux s.length s

/-- Cues contributed by one block of `parseSRT`: skip blocks with fewer
than two lines, locate the time line, require the `-->` separator, parse
both sides, join the remaining lines with `'\n'` and strip tags; the cue
is kept only when neither time is NaN.  (The source's `!timeLine` guard is
subsumed: an empty line cannot contain `-->`.) -/
def parseBlockCues (block : Str) : List SubtitleCue :=
  let lines := blockLines block
  if lines.length < 2 then []
  else
    if containsSub ['-', '-', '>'] (blockTimeLine block) = false then []
    else
      let text := stripTags (List.intercalate ['\n'] (lines.drop (blockTimeIndex lines + 1)))
      match parseTime (blockStartStr block), parseTime (blockEndStr block) with
      | some st, some en => [⟨st, en, text⟩]
      | _, _ => []

/-- `parseSRT`: normalize line endings, split into blank-line-separated
blocks, collect each block's cues in order. -/
def parseSRT (content : Str) : List SubtitleCue :=
  ((splitOnNN (normalizeNewlines content)).map parseBlockCues).flatten

/-- A chapter record (`types.ts`): title, start time in seconds, optional
end time. -/
structure Chapter where
  title : Str
  startTime : ℚ
  endTime : Option ℚ := none
deriving DecidableEq, Repr

instance : Inhabited Chapter := ⟨⟨[], 0, none⟩⟩

/-- The chapter sort order used by the player's comparator
`(a, b) => a.startTime - b.startTime`. -/
def chLE (a b : Chapter) : Prop := a.startTime ≤ b.startTime

instance : DecidableRel chLE := fun a b => inferInstanceAs (Decidable (a.startTime ≤ b.startTime))

instance : IsTotal Chapter chLE := ⟨fun a b => le_total a.startTime b.startTime⟩

instance : IsTrans Chapter chLE := ⟨fun _ _ _ => le_trans⟩

/-- The `chapters` memo: `[]` when the metadata has no chapter list
(JavaScript `!video.metadata.chapters`; an empty array is truthy) or when
`duration === 0`; otherwise the chapters with `startTime < duration`,
stably sorted ascending by `startTime` (JavaScript `Array.sort` is
stable, as is insertion sort). -/
def activeChapters (chaptersOpt : Option (List Chapter)) (duration : ℚ) : List Chapter :=
  match chaptersOpt with
  | none => []
  | some cs =>
    if duration = 0 then []
    else List.insertionSort chLE (cs.filter (fun c => decide (c.startTime < duration)))

/-- Seek target of `skipNextChapter`: `none` models "no seek performed"
(empty chapter list, or no chapter with `startTime > currentTime + 1`). -/
def skipNextTarget (chapters : List Chapter) (currentTime : ℚ) : Option ℚ :=
  if chapters.isEmpty then none
  else (chapters.find? (fun c => decide (currentTime + 1 < c.startTime))).map (·.startTime)

/-- Index of the current chapter: the source takes
`[...chapters].reverse().find(c => currentTime >= c.startTime)` — the last
chapter (in list order) whose `startTime ≤ currentTime` — and recovers its
position via `indexOf` (reference equality, hence the element's own
index).  Modelled directly as the largest such index. -/
def lastIdxLe (chapters : List Chapter) (t : ℚ) : Option ℕ :=
  match chapters with
  | [] => none
  | c :: rest =>
    match lastIdxLe rest t with
    | some j => some (j + 1)
    | none => if c.startTime ≤ t then some 0 else none

/-- Seek target of `skipPrevChapter`: `none` models "no seek performed"
(empty chapter list).  With no current chapter the target is `0`; within
3 seconds of the current chapter's start it is the previous chapter's
start (`0` when already first); otherwise the current chapter's start. -/
def skipPrevTarget (chapters : List Chapter) (t : ℚ) : Option ℚ :=
  if chapters.isEmpty then none
  else
    match lastIdxLe chapters t with
    | none => some 0
    | some i =>
      let cur := chapters.getD i default
      if t - cur.startTime < 3 then
        if 1 ≤ i then some ((chapters.getD (i - 1) default).startTime)
        else some 0
      else some cur.startTime

/-- The player-state fields touched by the media-engine error handler. -/
structure EngineFlags where
  error : Option String
  isPlaying : Bool
  isBuffering : Bool
deriving DecidableEq, Repr

/-- The unknown-failure message (the handler's initial `msg`). -/
def unknownFailureMessage : String := "An unknown playback error occurred."

/-- The user-facing message chosen for a non-abort media error code. -/
def mediaErrorMessage (code : ℤ) : String :=
  if code = 2 then "A network error caused the video download to fail."
  else if code = 3 then "The video playback was aborted due to a corruption problem or because the video used features your browser did not support."
  else if code = 4 then "The video could not be loaded, either because the server or network failed or because the format is not supported."
  else unknownFailureMessage

/-- The `onError` handler: code 1 (`MEDIA_ERR_ABORTED`) returns without
touching state; every other code sets the mapped message and forces
`isPlaying = false`, `isBuffering = false`. -/
def onError (code : ℤ) (st : EngineFlags) : EngineFlags :=
  if code = 1 then st
  else { error := some (mediaErrorMessage code), isPlaying := false, isBuffering := false }

/-- Visibility flags of the three overlay panels. -/
structure OverlayState where
  showStats : Bool
  showSettings : Bool
  showChapterList : Bool
deriving DecidableEq, Repr

/-- Number of open overlay panels. -/
def openCount (s : OverlayState) : ℕ :=
  (if s.showStats then 1 else 0) + (if s.showSettings then 1 else 0)
    + (if s.showChapterList then 1 else 0)

/-- Chapter-list toggle button:
`setShowChapterList(!showChapterList); setShowStats(false); setShowSettings(false)`. -/
def chapterListToggle (s : OverlayState) : OverlayState :=
  { showStats := false, showSettings := false, showChapterList := !s.showChapterList }

/-- Stats toggle button:
`setShowStats(!showStats); setShowChapterList(false); setShowSettings(false)`. -/
def statsToggle (s : OverlayState) : OverlayState :=
  { showStats := !s.showStats, showSettings := false, showChapterList := false }

/-- Settings toggle button:
`setShowSettings(!showSettings); setShowStats(false); setShowChapterList(false)`. -/
def settingsToggle (s : OverlayState) : OverlayState :=
  { showStats := false, showSettings := !s.showSettings, showChapterList := false }

/-- Panel effect of the subtitle-import path (`handleSubtitleFile`
load callback): only `setShowSettings(true)` — the other two panels are
left as they are. -/
def subtitleImportPanels (s : OverlayState) : OverlayState :=
  { s with showSettings := true }

/-- A subtitle selector entry (`Track`). -/
structure Track where
  id : String
  label : String
  lang : Option String := none
  isDefault : Option Bool := none
deriving DecidableEq, Repr

/-- The subtitle-related state of the player. -/
structure SubtitleState where
  subtitleTracks : List Track
  selectedSubtitleTrack : String
  activeCues : List SubtitleCue
deriving DecidableEq

/-- The freshly generated track id `upload-${Date.now()}`. -/
def uploadTrackId (now : ℕ) : String := "upload-" ++ toString now

/-- The `handleSubtitleFile` load callback: parse the file, append a new
track, select it, and set the parsed cues active. -/
def handleSubtitleFileLoaded (content : Str) (fileName : String) (now : ℕ)
    (s : SubtitleState) : SubtitleState :=
  { subtitleTracks := s.subtitleTracks ++ [{ id := uploadTrackId now, label := fileName, lang := some "Unknown" }],
    selectedSubtitleTrack := uploadTrackId now,
    activeCues := parseSRT content }

/-- `toggleSubtitles`: from `'off'`, select the first track when one
exists (else the source clicks the hidden file input, which changes no
subtitle state synchronously); otherwise switch to `'off'`.  The active
cue list is never touched. -/
def toggleSubtitles (s : SubtitleState) : SubtitleState :=
  if s.selectedSubtitleTrack = "off" then
    match s.subtitleTracks with
    | [] => s
    | t :: _ => { s with selectedSubtitleTrack := t.id }
  else { s with selectedSubtitleTrack := "off" }

/-- Timer/loop resources of a player session, plus the state field a stale
auto-hide callback would mutate. -/
structure SessionResources where
  statsLoopScheduled : Bool
  controlsTimerPending : Bool
  showControls : Bool
deriving DecidableEq, Repr

/-- The unmount cleanups present in the source: the realtime-stats effect
cancels its animation frame (`cancelAnimationFrame(animationFrameId)`); no
effect cleanup clears `controlsTimeoutRef`, so a pending auto-hide timer
survives teardown. -/
def unmountCleanup (s : SessionResources) : SessionResources :=
  { s with statsLoopScheduled := false }

/-- A pending auto-hide timer callback firing
(`setShowControls(false)` from `showControlsTemp` / `handleMouseMove`). -/
def controlsTimerFire (s : SessionResources) : SessionResources :=
  if s.controlsTimerPending then
    { s with controlsTimerPending := false, showControls := false }
  else s

/-- A timestamp of the form `H:MM:SS{,|.}mmm` rendered from components:
`hs` is the hours digit field, an arbitrary digit string, so both the
unpadded `0` and the standard zero-padded `00` hour forms are covered
(its numeric value is `digitsToNat hs`); minutes/seconds are two digits,
milliseconds three digits, `d` is the millisecond delimiter. -/
def renderTimestamp (hs : Str) (m s ms : ℕ) (d : Char) : Str :=
  hs ++ ':' :: (pad2 m ++ ':' :: (pad2 s ++ d :: pad3 ms))

/-- A time-range line `H:MM:SS{,|.}mmm --> H:MM:SS{,|.}mmm`. -/
def timeRangeLine (hs1 : Str) (m1 s1 ms1 : ℕ) (hs2 : Str) (m2 s2 ms2 : ℕ) (d : Char) : Str :=
  renderTimestamp hs1 m1 s1 ms1 d ++ ' ' :: '-' :: '-' :: '>' :: ' ' :: renderTimestamp hs2 m2 s2 ms2 d

/-- A well-formed subtitle block: a time-range line followed by cue text. -/
def wellFormedBlock (hs1 : Str) (m1 s1 ms1 : ℕ) (hs2 : Str) (m2 s2 ms2 : ℕ) (d : Char)
    (text : Str) : Str :=
  timeRangeLine hs1 m1 s1 ms1 hs2 m2 s2 ms2 d ++ '\n' :: text

/-! ### Basic lemmas about the string operations -/

theorem startsWith_append (p b : Str) : startsWith p (p ++ b) = true := by
  induction p with
  | nil => rfl
  | cons c cs ih => simp [startsWith, ih]

theorem head_eq_of_startsWith {p : Char} {ps s : Str} (h : startsWith (p :: ps) s = true) :
    ∃ t, s = p :: t ∧ startsWith ps t = true := by
  cases s with
  | nil => simp [startsWith] at h
  | cons c cs =>
    simp only [startsWith, Bool.and_eq_true, decide_eq_true_eq] at h
    exact ⟨cs, by rw [h.1], h.2⟩

theorem containsSub_of_startsWith {sep s : Str} (h : startsWith sep s = true) :
    containsSub sep s = true := by
  cases s with
  | nil => simpa [containsSub] using h
  | cons c cs => simp [containsSub, h]

theorem containsSub_cons_of_tail {sep : Str} {c : Char} {s : Str}
    (h : containsSub sep s = true) : containsSub sep (c :: s) = true := by
  simp [containsSub, h]

theorem containsSub_append_sep (sep a b : Str) : containsSub sep (a ++ sep ++ b) = true := by
  induction a with
  | nil =>
    simp only [List.nil_append]
    exact containsSub_of_startsWith (startsWith_append sep b)
  | cons c cs ih =>
    simp only [List.cons_append]
    exact containsSub_cons_of_tail ih

theorem mem_of_containsSub {x : Char} {xs s : Str} (h : containsSub (x :: xs) s = true) :
    x ∈ s := by
  induction s with
  | nil => simp [containsSub, startsWith] at h
  | cons c cs ih =>
    simp only [containsSub, Bool.or_eq_true] at h
    rcases h with h | h
    · obtain ⟨t, ht, _⟩ := head_eq_of_startsWith h
      rw [List.cons.injEq] at ht
      simp [ht.1]
    · exact List.mem_cons_of_mem _ (ih h)

theorem containsSub_eq_false {x : Char} {xs s : Str} (h : x ∉ s) :
    containsSub (x :: xs) s = false := by
  cases hc : containsSub (x :: xs) s with
  | false => rfl
  | true => exact absurd (mem_of_containsSub hc) h

/-! ### `splitOnPred` -/

theorem splitOnPred_ne_nil (p : Char → Bool) (s : Str) : splitOnPred p s ≠ [] := by
  induction s with
  | nil => simp [splitOnPred]
  | cons c cs ih =>
    simp only [splitOnPred]
    split
    · simp
    · split
      · simp
      · simp

theorem splitOnPred_cons_pos {p : Char → Bool} {c : Char} (cs : Str) (h : p c = true) :
    splitOnPred p (c :: cs) = [] :: splitOnPred p cs := by
  simp [splitOnPred, h]

theorem splitOnPred_cons_neg {p : Char → Bool} {c : Char} {cs r : Str} {rs : List Str}
    (h : p c = false) (hr : splitOnPred p cs = r :: rs) :
    splitOnPred p (c :: cs) = (c :: r) :: rs := by
  simp [splitOnPred, h, hr]

theorem splitOnPred_eq_self {p : Char → Bool} {s : Str} (h : ∀ c ∈ s, p c = false) :
    splitOnPred p s = [s] := by
  induction s with
  | nil => rfl
  | cons c cs ih =>
    have hc : p c = false := h c (by simp)
    have ih' := ih (fun d hd => h d (by simp [hd]))
    rw [splitOnPred_cons_neg hc ih']

theorem splitOnPred_append {p : Char → Bool} {a : Str} {d : Char} (b : Str)
    (ha : ∀ c ∈ a, p c = false) (hd : p d = true) :
    splitOnPred p (a ++ d :: b) = a :: splitOnPred p b := by
  induction a with
  | nil =>
    simp only [List.nil_append]
    exact splitOnPred_cons_pos b hd
  | cons c cs ih =>
    have hc : p c = false := ha c (by simp)
    have ih' := ih (fun e he => ha e (by simp [he]))
    simp only [List.cons_append]
    rw [splitOnPred_cons_neg hc ih']

theorem intercalate_cons₂ (sep x y : Str) (t : List Str) :
    List.intercalate sep (x :: y :: t) = x ++ sep ++ List.intercalate sep (y :: t) := by
  simp [List.intercalate, List.intersperse]

theorem intercalate_single (sep x : Str) : List.intercalate sep [x] = x := by
  simp [List.intercalate, List.intersperse]

theorem intercalate_splitOnPred (d : Char) (s : Str) :
    List.intercalate [d] (splitOnPred (fun c => c = d) s) = s := by
  induction s with
  | nil => simp [splitOnPred, List.intercalate, List.intersperse]
  | cons c cs ih =>
    obtain ⟨r, rs, hr⟩ := List.exists_cons_of_ne_nil (splitOnPred_ne_nil (fun c => c = d) cs)
    rw [hr] at ih
    by_cases hc : c = d
    · rw [splitOnPred_cons_pos cs (by simp [hc]), hr, intercalate_cons₂, ih]
      simp [hc]
    · rw [splitOnPred_cons_neg (by simp [hc]) hr]
      cases rs with
      | nil => rw [intercalate_single] at ih ⊢; simp [ih]
      | cons y t =>
        rw [intercalate_cons₂] at ih ⊢
        simp only [List.cons_append, List.cons.injEq]
        exact ⟨trivial, ih⟩

/-! ### `splitOn2` and `splitOn3` -/

theorem splitOn2_ne_nil (x y : Char) (s : Str) : splitOn2 x y s ≠ [] := by
  induction s using splitOn2.induct x y with
  | case1 a b rest h ih => simp [splitOn2, h]
  | case2 a b rest h heq => simp [splitOn2, if_neg h, heq]
  | case3 a b rest h r rs heq ih => simp [splitOn2, if_neg h, heq]
  | case4 c => simp [splitOn2]
  | case5 => simp [splitOn2]

theorem splitOn2_sep (x y : Char) (rest : Str) :
    splitOn2 x y (x :: y :: rest) = [] :: splitOn2 x y rest := by
  simp [splitOn2]

theorem splitOn2_cons_ne {x y c : Char} {s r : Str} {rs : List Str}
    (hne : startsWith [x, y] (c :: s) = false) (hr : splitOn2 x y s = r :: rs) :
    splitOn2 x y (c :: s) = (c :: r) :: rs := by
  cases s with
  | nil =>
    simp only [splitOn2]
    simp only [splitOn2] at hr
    rw [List.cons.injEq] at hr
    rw [← hr.1, ← hr.2]
  | cons b rest =>
    have hcond : ¬(c = x ∧ b = y) := by
      rintro ⟨rfl, rfl⟩
      simp [startsWith] at hne
    simp only [splitOn2, if_neg hcond, hr]

theorem splitOn2_eq_self {x y : Char} {s : Str} (h : containsSub [x, y] s = false) :
    splitOn2 x y s = [s] := by
  induction s with
  | nil => rfl
  | cons c cs ih =>
    simp only [containsSub, Bool.or_eq_false_iff] at h
    exact splitOn2_cons_ne h.1 (ih h.2)

theorem splitOn2_append {x y : Char} {a : Str} (b : Str)
    (ha : containsSub [x, y] a = false)
    (hB : a.getLast? = some x → x ≠ y) :
    splitOn2 x y (a ++ x :: y :: b) = a :: splitOn2 x y b := by
  induction a with
  | nil => simpa using splitOn2_sep x y b
  | cons c a' ih =>
    simp only [containsSub, Bool.or_eq_false_iff] at ha
    obtain ⟨ha1, ha2⟩ := ha
    have hne : startsWith [x, y] (c :: (a' ++ x :: y :: b)) = false := by
      show (decide (x = c) && startsWith [y] (a' ++ x :: y :: b)) = false
      by_cases hcx : x = c
      · cases a' with
        | nil =>
          have hxy : x ≠ y := hB (by simp [hcx])
          show (decide (x = c) && (decide (y = x) && startsWith [] (y :: b))) = false
          simp [Ne.symm hxy]
        | cons d a'' =>
          by_cases hyd : y = d
          · exfalso
            have hsw : startsWith [x, y] (c :: d :: a'') = true := by
              show (decide (x = c) && (decide (y = d) && startsWith [] a'')) = true
              simp [hcx, hyd, startsWith]
            rw [hsw] at ha1
            exact Bool.true_eq_false.mp ha1
          · show (decide (x = c) && (decide (y = d) && startsWith [] (a'' ++ x :: y :: b))) = false
            simp [hyd]
      · simp [hcx]
    have hlast : a'.getLast? = some x → x ≠ y := by
      cases a' with
      | nil => intro hl; simp at hl
      | cons e a₂ =>
        intro hl
        exact hB (by rw [List.getLast?_cons_cons]; exact hl)
    rw [List.cons_append, splitOn2_cons_ne hne (ih ha2 hlast)]

theorem splitOn3_ne_nil (x y z : Char) (s : Str) : splitOn3 x y z s ≠ [] := by
  induction s using splitOn3.induct x y z with
  | case1 a b c rest h ih => simp [splitOn3, h]
  | case2 a b c rest h heq => simp [splitOn3, if_neg h, heq]
  | case3 a b c rest h r rs heq ih => simp [splitOn3, if_neg h, heq]
  | case4 a b => simp [splitOn3]
  | case5 c => simp [splitOn3]
  | case6 => simp [splitOn3]

theorem splitOn3_sep (x y z : Char) (rest : Str) :
    splitOn3 x y z (x :: y :: z :: rest) = [] :: splitOn3 x y z rest := by
  simp [splitOn3]

theorem splitOn3_cons_ne {x y z c : Char} {s r : Str} {rs : List Str}
    (hc : c ≠ x) (hr : splitOn3 x y z s = r :: rs) :
    splitOn3 x y z (c :: s) = (c :: r) :: rs := by
  match s, hr with
  | [], hr =>
    simp only [splitOn3] at hr ⊢
    rw [List.cons.injEq] at hr
    rw [← hr.1, ← hr.2]
  | [a], hr =>
    simp only [splitOn3] at hr ⊢
    rw [List.cons.injEq] at hr
    rw [← hr.1, ← hr.2]
  | a :: d :: rest, hr =>
    have hcond : ¬(c = x ∧ a = y ∧ d = z) := fun h => hc h.1
    simp only [splitOn3, if_neg hcond, hr]

theorem splitOn3_eq_self {x y z : Char} {s : Str} (h : x ∉ s) :
    splitOn3 x y z s = [s] := by
  induction s with
  | nil => rfl
  | cons c cs ih =>
    have hc : c ≠ x := fun he => h (by simp [he])
    exact splitOn3_cons_ne hc (ih (fun he => h (List.mem_cons_of_mem _ he)))

theorem splitOn3_append {x y z : Char} {a : Str} (b : Str) (ha : x ∉ a) :
    splitOn3 x y z (a ++ x :: y :: z :: b) = a :: splitOn3 x y z b := by
  induction a with
  | nil => simpa using splitOn3_sep x y z b
  | cons c a' ih =>
    have hc : c ≠ x := fun he => ha (by simp [he])
    rw [List.cons_append, splitOn3_cons_ne hc (ih (fun he => ha (List.mem_cons_of_mem _ he)))]

/-- A time line followed by `'\n'` and tag-free text contains no blank
line, provided the text neither starts with `'\n'` nor contains `"\n\n"`. -/
theorem containsSub_nn_block {tl text : Str} (h1 : '\n' ∉ tl)
    (h2 : text.head? ≠ some '\n') (h3 : containsSub ['\n', '\n'] text = false) :
    containsSub ['\n', '\n'] (tl ++ '\n' :: text) = false := by
  induction tl with
  | nil =>
    simp only [List.nil_append, containsSub, Bool.or_eq_false_iff]
    refine ⟨?_, h3⟩
    show (decide ('\n' = '\n') && startsWith ['\n'] text) = false
    cases text with
    | nil => simp [startsWith]
    | cons d t =>
      have hd : d ≠ '\n' := fun he => h2 (by simp [he])
      show (decide ('\n' = '\n') && (decide ('\n' = d) && startsWith [] t)) = false
      simp [Ne.symm hd]
  | cons c tl' ih =>
    have hc : c ≠ '\n' := fun he => h1 (by simp [he])
    simp only [List.cons_append, containsSub, Bool.or_eq_false_iff]
    refine ⟨?_, ih (fun he => h1 (List.mem_cons_of_mem _ he))⟩
    show (decide ('\n' = c) && startsWith ['\n'] (tl' ++ '\n' :: text)) = false
    simp [Ne.symm hc]

/-! ### Whitespace, trimming, digits -/

theorem dropWhile_eq_self_of_head {p : Char → Bool} {s : Str}
    (h : ∀ c, s.head? = some c → p c = false) : s.dropWhile p = s := by
  cases s with
  | nil => rfl
  | cons c t => simp [List.dropWhile, h c rfl]

theorem mem_of_head? {s : Str} {c : Char} (h : s.head? = some c) : c ∈ s := by
  cases s with
  | nil => simp at h
  | cons a t =>
    simp only [List.head?_cons, Option.some.injEq] at h
    simp [← h]

theorem mem_of_getLast? {s : Str} {c : Char} (h : s.getLast? = some c) : c ∈ s := by
  rw [← List.head?_reverse] at h
  exact List.mem_reverse.mp (mem_of_head? h)

theorem dropWhile_eq_self_of_forall {p : Char → Bool} {s : Str}
    (h : ∀ c ∈ s, p c = false) : s.dropWhile p = s :=
  dropWhile_eq_self_of_head (fun c hc => h c (mem_of_head? hc))

theorem takeWhile_eq_self_of_forall {p : Char → Bool} {s : Str}
    (h : ∀ c ∈ s, p c = true) : s.takeWhile p = s := by
  induction s with
  | nil => rfl
  | cons c t ih =>
    simp only [List.takeWhile, h c (by simp)]
    rw [ih (fun d hd => h d (by simp [hd]))]

theorem trimStr_eq_self {s : Str} (hh : ∀ c, s.head? = some c → isWS c = false)
    (hl : ∀ c, s.getLast? = some c → isWS c = false) : trimStr s = s := by
  unfold trimStr
  rw [dropWhile_eq_self_of_head hh,
    dropWhile_eq_self_of_head (fun c hc => hl c (by rwa [List.head?_reverse] at hc)),
    List.reverse_reverse]

theorem trimStr_all_not_ws {s : Str} (h : ∀ c ∈ s, isWS c = false) : trimStr s = s :=
  trimStr_eq_self (fun c hc => h c (mem_of_head? hc)) (fun c hc => h c (mem_of_getLast? hc))

theorem trimStr_append_space {ts : Str} (hne : ts ≠ [])
    (h : ∀ c ∈ ts, isWS c = false) : trimStr (ts ++ [' ']) = ts := by
  unfold trimStr
  have hh : ∀ c, (ts ++ [' ']).head? = some c → isWS c = false := by
    intro c hc
    cases ts with
    | nil => exact absurd rfl hne
    | cons a t =>
      simp only [List.cons_append, List.head?_cons, Option.some.injEq] at hc
      exact h c (by simp [← hc])
  rw [dropWhile_eq_self_of_head hh]
  have hrev : (ts ++ [' ']).reverse = ' ' :: ts.reverse := by simp
  rw [hrev]
  have hws : isWS ' ' = true := by decide
  simp only [List.dropWhile, hws]
  rw [dropWhile_eq_self_of_forall (fun c hc => h c (List.mem_reverse.mp hc)),
    List.reverse_reverse]

theorem trimStr_space_cons {ts : Str} (h : ∀ c ∈ ts, isWS c = false) :
    trimStr (' ' :: ts) = ts := by
  unfold trimStr
  have hws : isWS ' ' = true := by decide
  simp only [List.dropWhile, hws]
  rw [dropWhile_eq_self_of_forall h]
  rw [dropWhile_eq_self_of_forall (fun c hc => h c (List.mem_reverse.mp hc)),
    List.reverse_reverse]

theorem isDigit_props {c : Char} (h : isDigitChar c = true) :
    isWS c = false ∧ c ≠ ':' ∧ c ≠ ',' ∧ c ≠ '.' ∧ c ≠ '-' ∧ c ≠ '+' ∧ c ≠ '<' ∧ c ≠ '\n' := by
  refine ⟨?_, ?_, ?_, ?_, ?_, ?_, ?_, ?_⟩
  · cases hw : isWS c with
    | false => rfl
    | true =>
      exfalso
      simp only [isWS, Bool.or_eq_true, decide_eq_true_eq] at hw
      rcases hw with ((rfl | rfl) | rfl) | rfl <;> exact absurd h (by decide)
  all_goals intro he
  all_goals rw [he] at h
  all_goals exact absurd h (by decide)

theorem digitChar_toNat {d : ℕ} (h : d < 10) : (digitChar d).toNat = 48 + d := by
  interval_cases d <;> decide

theorem digitChar_isDigit {d : ℕ} (h : d < 10) : isDigitChar (digitChar d) = true := by
  interval_cases d <;> decide

theorem natDigitsAux_spec : ∀ fuel n, n < fuel →
    digitsToNat (natDigitsAux fuel n) = n ∧ natDigitsAux fuel n ≠ [] ∧
      ∀ c ∈ natDigitsAux fuel n, isDigitChar c = true := by
  intro fuel
  induction fuel with
  | zero => intro n hn; omega
  | succ fuel ih =>
    intro n hn
    by_cases h10 : n < 10
    · refine ⟨?_, by simp [natDigitsAux, h10], ?_⟩
      · simp only [natDigitsAux, if_pos h10]
        simp [digitsToNat, digitChar_toNat h10]
      · intro c hc
        simp only [natDigitsAux, if_pos h10, List.mem_singleton] at hc
        rw [hc]
        exact digitChar_isDigit h10
    · have hdiv : n / 10 < fuel := by omega
      obtain ⟨ih1, ih2, ih3⟩ := ih (n / 10) hdiv
      have hmod : n % 10 < 10 := Nat.mod_lt _ (by omega)
      refine ⟨?_, ?_, ?_⟩
      · simp only [natDigitsAux, if_neg h10]
        unfold digitsToNat
        rw [List.foldl_append]
        show digitsToNat (natDigitsAux fuel (n / 10)) * 10 + ((digitChar (n % 10)).toNat - 48) = n
        rw [ih1, digitChar_toNat hmod]
        omega
      · simp [natDigitsAux, h10]
      · intro c hc
        simp only [natDigitsAux, if_neg h10, List.mem_append, List.mem_singleton] at hc
        rcases hc with hc | hc
        · exact ih3 c hc
        · rw [hc]; exact digitChar_isDigit hmod

theorem digitsToNat_natDigits (n : ℕ) : digitsToNat (natDigits n) = n :=
  (natDigitsAux_spec (n + 1) n (by omega)).1

theorem natDigits_ne_nil (n : ℕ) : natDigits n ≠ [] :=
  (natDigitsAux_spec (n + 1) n (by omega)).2.1

theorem natDigits_all_digit (n : ℕ) : ∀ c ∈ natDigits n, isDigitChar c = true :=
  (natDigitsAux_spec (n + 1) n (by omega)).2.2

theorem digitsToNat_zero_cons (l : Str) : digitsToNat ('0' :: l) = digitsToNat l := rfl

theorem digitsToNat_pad2 (n : ℕ) : digitsToNat (pad2 n) = n := by
  unfold pad2
  split
  · rw [digitsToNat_zero_cons, digitsToNat_natDigits]
  · exact digitsToNat_natDigits n

theorem pad2_ne_nil (n : ℕ) : pad2 n ≠ [] := by
  unfold pad2
  split
  · simp
  · exact natDigits_ne_nil n

theorem pad2_all_digit (n : ℕ) : ∀ c ∈ pad2 n, isDigitChar c = true := by
  unfold pad2
  split
  · intro c hc
    rcases List.mem_cons.mp hc with hc | hc
    · rw [hc]; decide
    · exact natDigits_all_digit n c hc
  · exact natDigits_all_digit n

theorem digitsToNat_pad3 (n : ℕ) : digitsToNat (pad3 n) = n := by
  unfold pad3
  split
  · rw [digitsToNat_zero_cons, digitsToNat_zero_cons, digitsToNat_natDigits]
  · split
    · rw [digitsToNat_zero_cons, digitsToNat_natDigits]
    · exact digitsToNat_natDigits n

theorem pad3_ne_nil (n : ℕ) : pad3 n ≠ [] := by
  unfold pad3
  split
  · simp
  · split
    · simp
    · exact natDigits_ne_nil n

theorem pad3_all_digit (n : ℕ) : ∀ c ∈ pad3 n, isDigitChar c = true := by
  unfold pad3
  split
  · intro c hc
    rcases List.mem_cons.mp hc with hc | hc
    · rw [hc]; decide
    · rcases List.mem_cons.mp hc with hc | hc
      · rw [hc]; decide
      · exact natDigits_all_digit n c hc
  · split
    · intro c hc
      rcases List.mem_cons.mp hc with hc | hc
      · rw [hc]; decide
      · exact natDigits_all_digit n c hc
    · exact natDigits_all_digit n

/-! ### `jsNumber`, `jsParseInt`, `parseTime` -/

theorem jsNumber_digits {ds : Str} (hne : ds ≠ []) (h : ∀ c ∈ ds, isDigitChar c = true) :
    jsNumber ds = some ((digitsToNat ds : ℚ)) := by
  obtain ⟨c, cs, rfl⟩ := List.exists_cons_of_ne_nil hne
  have hc : isDigitChar c = true := h c (by simp)
  have hprops := isDigit_props hc
  have htrim : trimStr (c :: cs) = c :: cs :=
    trimStr_all_not_ws (fun d hd => (isDigit_props (h d hd)).1)
  have hsplit : splitOnPred (fun c => c = '.') (c :: cs) = [c :: cs] :=
    splitOnPred_eq_self (fun d hd => by simp [(isDigit_props (h d hd)).2.2.2.1])
  have hneg : (decide ((c :: cs).head? = some '-') : Bool) = false := by
    simp [hprops.2.2.2.2.1]
  have hplus : (decide ((c :: cs).head? = some '+') : Bool) = false := by
    simp [hprops.2.2.2.2.2.1]
  simp only [jsNumber, htrim, List.isEmpty_cons, hneg, hplus, Bool.or_self, Bool.false_eq_true,
    if_false, if_neg, hsplit]
  rw [if_pos ⟨by simp, List.all_eq_true.mpr h⟩]
  simp

theorem jsParseInt_digits {ds : Str} (hne : ds ≠ []) (h : ∀ c ∈ ds, isDigitChar c = true) :
    jsParseInt ds = some ((digitsToNat ds : ℤ)) := by
  obtain ⟨c, cs, rfl⟩ := List.exists_cons_of_ne_nil hne
  have hc : isDigitChar c = true := h c (by simp)
  have hprops := isDigit_props hc
  have hdrop : (c :: cs).dropWhile isWS = c :: cs :=
    dropWhile_eq_self_of_forall (fun d hd => (isDigit_props (h d hd)).1)
  have htake : (c :: cs).takeWhile isDigitChar = c :: cs := takeWhile_eq_self_of_forall h
  have hneg : (decide ((c :: cs).head? = some '-') : Bool) = false := by
    simp [hprops.2.2.2.2.1]
  have hplus : (decide ((c :: cs).head? = some '+') : Bool) = false := by
    simp [hprops.2.2.2.2.2.1]
  simp only [jsParseInt, hdrop, hneg, hplus, Bool.or_self, Bool.false_eq_true, if_false, htake,
    List.isEmpty_cons]
  simp

/-- `Number` on the rendered hour/minute/second components. -/
theorem jsNumber_natDigits (n : ℕ) : jsNumber (natDigits n) = some (n : ℚ) := by
  rw [jsNumber_digits (natDigits_ne_nil n) (natDigits_all_digit n), digitsToNat_natDigits]

theorem jsNumber_pad2 (n : ℕ) : jsNumber (pad2 n) = some (n : ℚ) := by
  rw [jsNumber_digits (pad2_ne_nil n) (pad2_all_digit n), digitsToNat_pad2]

theorem jsParseInt_pad3 (n : ℕ) : jsParseInt (pad3 n) = some (n : ℤ) := by
  rw [jsParseInt_digits (pad3_ne_nil n) (pad3_all_digit n), digitsToNat_pad3]

theorem renderTimestamp_not_ws {hs : Str} {m s ms : ℕ} {d : Char} (hd : d = ',' ∨ d = '.')
    (hdig : ∀ c ∈ hs, isDigitChar c = true) :
    ∀ c ∈ renderTimestamp hs m s ms d, isWS c = false := by
  intro c hc
  simp only [renderTimestamp, List.mem_append, List.mem_cons] at hc
  rcases hc with hc | hc | hc | hc | hc
  · exact (isDigit_props (hdig c hc)).1
  · rw [hc]; decide
  · exact (isDigit_props (pad2_all_digit _ c hc)).1
  · rw [hc]; decide
  · rcases hc with hc | hc | hc
    · exact (isDigit_props (pad2_all_digit _ c hc)).1
    · rcases hd with rfl | rfl <;> (rw [hc]; decide)
    · exact (isDigit_props (pad3_all_digit _ c hc)).1

theorem renderTimestamp_no_dash {hs : Str} {m s ms : ℕ} {d : Char} (hd : d = ',' ∨ d = '.')
    (hdig : ∀ c ∈ hs, isDigitChar c = true) :
    '-' ∉ renderTimestamp hs m s ms d := by
  intro hc
  simp only [renderTimestamp, List.mem_append, List.mem_cons] at hc
  rcases hc with hc | hc | hc | hc | hc
  · exact absurd rfl (isDigit_props (hdig '-' hc)).2.2.2.2.1
  · exact absurd hc (by decide)
  · exact absurd (pad2_all_digit _ '-' hc) (by decide)
  · exact absurd hc (by decide)
  · rcases hc with hc | hc | hc
    · exact absurd (pad2_all_digit _ '-' hc) (by decide)
    · rcases hd with rfl | rfl <;> exact absurd hc (by decide)
    · exact absurd (pad3_all_digit _ '-' hc) (by decide)

theorem renderTimestamp_no_nl {hs : Str} {m s ms : ℕ} {d : Char} (hd : d = ',' ∨ d = '.')
    (hdig : ∀ c ∈ hs, isDigitChar c = true) :
    '\n' ∉ renderTimestamp hs m s ms d := by
  intro hc
  have := renderTimestamp_not_ws hd hdig '\n' hc
  simp [isWS] at this

theorem renderTimestamp_ne_nil (hs : Str) (m s ms : ℕ) (d : Char) :
    renderTimestamp hs m s ms d ≠ [] := by
  intro he
  exact List.cons_ne_nil _ _ (List.append_eq_nil.mp he).2

/-- `parseTime` recovers `h*3600 + m*60 + s + ms/1000` from a rendered
timestamp, where `h` is the numeric value of the hours digit field. -/
theorem parseTime_renderTimestamp (hs : Str) (m s ms : ℕ) {d : Char} (hd : d = ',' ∨ d = '.')
    (hne : hs ≠ []) (hdig : ∀ c ∈ hs, isDigitChar c = true) :
    parseTime (renderTimestamp hs m s ms d) =
      some ((digitsToNat hs : ℚ) * 3600 + (m : ℚ) * 60 + (s : ℚ) + (ms : ℚ) / 1000) := by
  have hne' : renderTimestamp hs m s ms d ≠ [] := renderTimestamp_ne_nil hs m s ms d
  have hdelim : ((fun c => decide (c = ',') || decide (c = '.')) d) = true := by
    rcases hd with rfl | rfl <;> decide
  have hmsParts :
      splitOnPred (fun c => c = ',' || c = '.') (renderTimestamp hs m s ms d)
        = [hs ++ ':' :: (pad2 m ++ ':' :: pad2 s), pad3 ms] := by
    have hfix : renderTimestamp hs m s ms d
        = (hs ++ ':' :: (pad2 m ++ ':' :: pad2 s)) ++ d :: pad3 ms := by
      simp [renderTimestamp]
    rw [hfix]
    rw [splitOnPred_append (pad3 ms) ?ha hdelim]
    · rw [splitOnPred_eq_self (fun c hc => pad3_all_digit ms c hc |> fun hdc => by
        have := isDigit_props hdc
        simp [this.2.2.1, this.2.2.2.1])]
    case ha =>
      intro c hc
      simp only [List.mem_append, List.mem_cons] at hc
      rcases hc with hc | rfl | hc | rfl | hc
      · have := isDigit_props (hdig c hc)
        simp [this.2.2.1, this.2.2.2.1]
      · decide
      · have := isDigit_props (pad2_all_digit _ c hc)
        simp [this.2.2.1, this.2.2.2.1]
      · decide
      · have := isDigit_props (pad2_all_digit _ c hc)
        simp [this.2.2.1, this.2.2.2.1]
  have hhms :
      splitOnPred (fun c => c = ':') (hs ++ ':' :: (pad2 m ++ ':' :: pad2 s))
        = [hs, pad2 m, pad2 s] := by
    rw [splitOnPred_append (pad2 m ++ ':' :: pad2 s)
      (fun c hc => by simp [(isDigit_props (hdig c hc)).2.1]) (by decide)]
    rw [splitOnPred_append (pad2 s)
      (fun c hc => by simp [(isDigit_props (pad2_all_digit _ c hc)).2.1]) (by decide)]
    rw [splitOnPred_eq_self (fun c hc => by simp [(isDigit_props (pad2_all_digit _ c hc)).2.1])]
  obtain ⟨mc, mcs, hmc⟩ := List.exists_cons_of_ne_nil (pad3_ne_nil ms)
  have hEmpty : (renderTimestamp hs m s ms d).isEmpty = false := by
    cases hrt : renderTimestamp hs m s ms d with
    | nil => exact absurd hrt hne'
    | cons a t => rfl
  simp only [parseTime, hEmpty, Bool.false_eq_true, if_false, hmsParts, List.headD_cons, hhms,
    List.map_cons, List.get?_cons_zero, List.get?_cons_succ, List.get?_nil, Option.getD_some,
    hmc, jsNumber_digits hne hdig, jsNumber_pad2]
  rw [← hmc, jsParseInt_pad3]
  push_cast
  ring_nf

/-! ### Block-level lemmas -/

theorem stripTagsAux_no_tag : ∀ (fuel : ℕ) (s : Str), s.length ≤ fuel → '<' ∉ s →
    stripTagsAux fuel s = s := by
  intro fuel
  induction fuel with
  | zero => intro s _ _; rfl
  | succ fuel ih =>
    intro s hlen htag
    cases s with
    | nil => rfl
    | cons c t =>
      have hc : ¬(c = '<') := fun he => htag (by simp [he])
      simp only [stripTagsAux, if_neg hc]
      rw [ih t (by simpa using Nat.le_of_succ_le_succ hlen) (fun he => htag (by simp [he]))]

theorem stripTags_no_tag {s : Str} (htag : '<' ∉ s) : stripTags s = s :=
  stripTagsAux_no_tag s.length s le_rfl htag

theorem map_noop {f : Char → Char} {s : Str} (h : ∀ c ∈ s, f c = c) : s.map f = s := by
  induction s with
  | nil => rfl
  | cons c t ih => simp only [List.map_cons, h c (by simp), ih (fun d hd => h d (by simp [hd]))]

theorem normalizeNewlines_no_cr {s : Str} (h : '\r' ∉ s) : normalizeNewlines s = s := by
  unfold normalizeNewlines splitOnCRLF
  rw [splitOn2_eq_self (containsSub_eq_false h), intercalate_single]
  exact map_noop (fun c hc => by
    have : ¬(c = '\r') := fun he => h (he ▸ hc)
    simp [this])

theorem getLast?_append_right {a b : Str} (h : b ≠ []) : (a ++ b).getLast? = b.getLast? := by
  rw [List.getLast?_append]
  obtain ⟨c, hc⟩ := Option.isSome_iff_exists.mp (List.getLast?_isSome.mpr h)
  simp [hc]

theorem timeRangeLine_mem {hs1 : Str} {m1 s1 ms1 : ℕ} {hs2 : Str} {m2 s2 ms2 : ℕ} {d c : Char}
    (hc : c ∈ timeRangeLine hs1 m1 s1 ms1 hs2 m2 s2 ms2 d) :
    c ∈ renderTimestamp hs1 m1 s1 ms1 d ∨ c ∈ renderTimestamp hs2 m2 s2 ms2 d
      ∨ c = ' ' ∨ c = '-' ∨ c = '>' := by
  simp only [timeRangeLine, List.mem_append, List.mem_cons] at hc
  tauto

theorem timeRangeLine_no_nl {hs1 : Str} {m1 s1 ms1 : ℕ} {hs2 : Str} {m2 s2 ms2 : ℕ} {d : Char}
    (hd : d = ',' ∨ d = '.')
    (hdig1 : ∀ c ∈ hs1, isDigitChar c = true) (hdig2 : ∀ c ∈ hs2, isDigitChar c = true) :
    '\n' ∉ timeRangeLine hs1 m1 s1 ms1 hs2 m2 s2 ms2 d := by
  intro hc
  rcases timeRangeLine_mem hc with hc | hc | hc | hc | hc
  · exact renderTimestamp_no_nl hd hdig1 hc
  · exact renderTimestamp_no_nl hd hdig2 hc
  all_goals exact absurd hc (by decide)

theorem timeRangeLine_no_cr {hs1 : Str} {m1 s1 ms1 : ℕ} {hs2 : Str} {m2 s2 ms2 : ℕ} {d : Char}
    (hd : d = ',' ∨ d = '.')
    (hdig1 : ∀ c ∈ hs1, isDigitChar c = true) (hdig2 : ∀ c ∈ hs2, isDigitChar c = true) :
    '\r' ∉ timeRangeLine hs1 m1 s1 ms1 hs2 m2 s2 ms2 d := by
  intro hc
  rcases timeRangeLine_mem hc with hc | hc | hc | hc | hc
  · have := renderTimestamp_not_ws hd hdig1 _ hc; simp [isWS] at this
  · have := renderTimestamp_not_ws hd hdig2 _ hc; simp [isWS] at this
  all_goals exact absurd hc (by decide)

theorem timeRangeLine_head {hs1 : Str} {m1 s1 ms1 : ℕ} {hs2 : Str} {m2 s2 ms2 : ℕ} {d : Char}
    {c : Char} (hne1 : hs1 ≠ []) (hdig1 : ∀ e ∈ hs1, isDigitChar e = true)
    (hc : (timeRangeLine hs1 m1 s1 ms1 hs2 m2 s2 ms2 d).head? = some c) :
    isDigitChar c = true := by
  obtain ⟨a, t, ha⟩ := List.exists_cons_of_ne_nil hne1
  have : timeRangeLine hs1 m1 s1 ms1 hs2 m2 s2 ms2 d
      = a :: (t ++ ':' :: (pad2 m1 ++ ':' :: (pad2 s1 ++ d :: pad3 ms1))
          ++ ' ' :: '-' :: '-' :: '>' :: ' ' :: renderTimestamp hs2 m2 s2 ms2 d) := by
    simp [timeRangeLine, renderTimestamp, ha]
  rw [this] at hc
  simp only [List.head?_cons, Option.some.injEq] at hc
  exact hc ▸ hdig1 a (by simp [ha])

/-- The time-range line is not a pure index line: it contains `':'`. -/
theorem timeRangeLine_not_all_digits (hs1 : Str) (m1 s1 ms1 : ℕ) (hs2 : Str) (m2 s2 ms2 : ℕ)
    (d : Char) :
    (timeRangeLine hs1 m1 s1 ms1 hs2 m2 s2 ms2 d).all isDigitChar = false := by
  have hmem : ':' ∈ timeRangeLine hs1 m1 s1 ms1 hs2 m2 s2 ms2 d := by
    simp [timeRangeLine, renderTimestamp]
  cases hall : (timeRangeLine hs1 m1 s1 ms1 hs2 m2 s2 ms2 d).all isDigitChar with
  | false => rfl
  | true => exact absurd (List.all_eq_true.mp hall ':' hmem) (by decide)

theorem timeRangeLine_contains_arrow (hs1 : Str) (m1 s1 ms1 : ℕ) (hs2 : Str) (m2 s2 ms2 : ℕ)
    (d : Char) :
    containsSub ['-', '-', '>'] (timeRangeLine hs1 m1 s1 ms1 hs2 m2 s2 ms2 d) = true := by
  have : timeRangeLine hs1 m1 s1 ms1 hs2 m2 s2 ms2 d
      = (renderTimestamp hs1 m1 s1 ms1 d ++ [' ']) ++ ['-', '-', '>']
          ++ (' ' :: renderTimestamp hs2 m2 s2 ms2 d) := by
    simp [timeRangeLine]
  rw [this]
  exact containsSub_append_sep _ _ _

theorem timeLineSides_timeRangeLine {hs1 : Str} {m1 s1 ms1 : ℕ} {hs2 : Str} {m2 s2 ms2 : ℕ}
    {d : Char} (hd : d = ',' ∨ d = '.')
    (hdig1 : ∀ c ∈ hs1, isDigitChar c = true) (hdig2 : ∀ c ∈ hs2, isDigitChar c = true) :
    timeLineSides (timeRangeLine hs1 m1 s1 ms1 hs2 m2 s2 ms2 d)
      = [renderTimestamp hs1 m1 s1 ms1 d, renderTimestamp hs2 m2 s2 ms2 d] := by
  have hsplit : splitOnArrow (timeRangeLine hs1 m1 s1 ms1 hs2 m2 s2 ms2 d)
      = [renderTimestamp hs1 m1 s1 ms1 d ++ [' '], ' ' :: renderTimestamp hs2 m2 s2 ms2 d] := by
    have hgroup : timeRangeLine hs1 m1 s1 ms1 hs2 m2 s2 ms2 d
        = (renderTimestamp hs1 m1 s1 ms1 d ++ [' ']) ++ '-' :: '-' :: '>'
            :: (' ' :: renderTimestamp hs2 m2 s2 ms2 d) := by
      simp [timeRangeLine]
    rw [hgroup]
    unfold splitOnArrow
    rw [splitOn3_append _ ?hdash]
    · rw [splitOn3_eq_self ?hdash2]
      case hdash2 =>
        intro hc
        rcases List.mem_cons.mp hc with hc | hc
        · exact absurd hc (by decide)
        · exact renderTimestamp_no_dash hd hdig2 hc
    case hdash =>
      intro hc
      rcases List.mem_append.mp hc with hc | hc
      · exact renderTimestamp_no_dash hd hdig1 hc
      · exact absurd hc (by decide)
  unfold timeLineSides
  rw [hsplit]
  simp only [List.map_cons, List.map_nil]
  rw [trimStr_append_space (renderTimestamp_ne_nil hs1 m1 s1 ms1 d)
    (renderTimestamp_not_ws hd hdig1)]
  rw [trimStr_space_cons (renderTimestamp_not_ws hd hdig2)]

theorem timeRangeLine_ne_nil (hs1 : Str) (m1 s1 ms1 : ℕ) (hs2 : Str) (m2 s2 ms2 : ℕ)
    (d : Char) : timeRangeLine hs1 m1 s1 ms1 hs2 m2 s2 ms2 d ≠ [] := by
  intro he
  simp only [timeRangeLine, List.append_eq_nil] at he
  exact renderTimestamp_ne_nil hs1 m1 s1 ms1 d he.1

theorem blockLines_wellFormedBlock {hs1 : Str} {m1 s1 ms1 : ℕ} {hs2 : Str} {m2 s2 ms2 : ℕ}
    {d : Char} {text : Str} (hd : d = ',' ∨ d = '.')
    (hne1 : hs1 ≠ []) (hdig1 : ∀ c ∈ hs1, isDigitChar c = true)
    (hdig2 : ∀ c ∈ hs2, isDigitChar c = true) (htne : text ≠ [])
    (hlast : ∀ c, text.getLast? = some c → isWS c = false) :
    blockLines (wellFormedBlock hs1 m1 s1 ms1 hs2 m2 s2 ms2 d text)
      = timeRangeLine hs1 m1 s1 ms1 hs2 m2 s2 ms2 d
          :: splitOnPred (fun c => c = '\n') text := by
  unfold blockLines wellFormedBlock
  have htrim : trimStr (timeRangeLine hs1 m1 s1 ms1 hs2 m2 s2 ms2 d ++ '\n' :: text)
      = timeRangeLine hs1 m1 s1 ms1 hs2 m2 s2 ms2 d ++ '\n' :: text := by
    apply trimStr_eq_self
    · intro c hc
      obtain ⟨a, t, ht⟩ :=
        List.exists_cons_of_ne_nil (timeRangeLine_ne_nil hs1 m1 s1 ms1 hs2 m2 s2 ms2 d)
      rw [ht] at hc
      simp only [List.cons_append, List.head?_cons, Option.some.injEq] at hc
      have : isDigitChar c = true :=
        timeRangeLine_head hne1 hdig1 (by rw [ht, List.head?_cons, hc])
      exact (isDigit_props this).1
    · intro c hc
      rw [getLast?_append_right (by simp)] at hc
      have : ('\n' :: text).getLast? = text.getLast? := by
        have : '\n' :: text = ['\n'] ++ text := rfl
        rw [this, getLast?_append_right htne]
      rw [this] at hc
      exact hlast c hc
  rw [htrim]
  exact splitOnPred_append text
    (fun c hc => by
      have : ¬(c = '\n') := fun he => timeRangeLine_no_nl hd hdig1 hdig2 (he ▸ hc)
      simp [this])
    (by decide)

/-- `parseBlockCues` on a well-formed block yields exactly one cue with the
parsed times and the tag-stripped text. -/
theorem parseBlockCues_wellFormedBlock
    (hs1 : Str) (m1 s1 ms1 : ℕ) (hs2 : Str) (m2 s2 ms2 : ℕ) {d : Char} {text : Str}
    (hd : d = ',' ∨ d = '.')
    (hne1 : hs1 ≠ []) (hdig1 : ∀ c ∈ hs1, isDigitChar c = true)
    (hne2 : hs2 ≠ []) (hdig2 : ∀ c ∈ hs2, isDigitChar c = true)
    (htne : text ≠ [])
    (hlast : ∀ c, text.getLast? = some c → isWS c = false) :
    parseBlockCues (wellFormedBlock hs1 m1 s1 ms1 hs2 m2 s2 ms2 d text)
      = [⟨(digitsToNat hs1 : ℚ) * 3600 + (m1 : ℚ) * 60 + (s1 : ℚ) + (ms1 : ℚ) / 1000,
          (digitsToNat hs2 : ℚ) * 3600 + (m2 : ℚ) * 60 + (s2 : ℚ) + (ms2 : ℚ) / 1000,
          stripTags text⟩] := by
  have hlines :=
    @blockLines_wellFormedBlock hs1 m1 s1 ms1 hs2 m2 s2 ms2 d text hd hne1 hdig1 hdig2 htne hlast
  obtain ⟨r0, rs, hr⟩ := List.exists_cons_of_ne_nil (splitOnPred_ne_nil (fun c => c = '\n') text)
  have hidx : blockTimeIndex (timeRangeLine hs1 m1 s1 ms1 hs2 m2 s2 ms2 d :: r0 :: rs) = 0 := by
    unfold blockTimeIndex
    rw [if_neg]
    intro hcond
    rw [List.headD_cons, timeRangeLine_not_all_digits] at hcond
    exact Bool.false_ne_true hcond.2.1
  have harrow := timeRangeLine_contains_arrow hs1 m1 s1 ms1 hs2 m2 s2 ms2 d
  have hbtl : blockTimeLine (wellFormedBlock hs1 m1 s1 ms1 hs2 m2 s2 ms2 d text)
      = timeRangeLine hs1 m1 s1 ms1 hs2 m2 s2 ms2 d := by
    unfold blockTimeLine
    rw [hlines, hr, hidx, List.getD_cons_zero]
  have hstart : blockStartStr (wellFormedBlock hs1 m1 s1 ms1 hs2 m2 s2 ms2 d text)
      = renderTimestamp hs1 m1 s1 ms1 d := by
    unfold blockStartStr
    rw [hbtl, timeLineSides_timeRangeLine hd hdig1 hdig2, List.getD_cons_zero]
  have hend : blockEndStr (wellFormedBlock hs1 m1 s1 ms1 hs2 m2 s2 ms2 d text)
      = renderTimestamp hs2 m2 s2 ms2 d := by
    unfold blockEndStr
    rw [hbtl, timeLineSides_timeRangeLine hd hdig1 hdig2, List.getD_cons_succ,
      List.getD_cons_zero]
  unfold parseBlockCues
  rw [hlines, hr]
  simp only [hidx, List.length_cons, List.drop_succ_cons, List.drop_zero]
  rw [if_neg (by omega)]
  rw [if_neg (by simp [hbtl, harrow])]
  rw [hstart, hend, ← hr, intercalate_splitOnPred,
    parseTime_renderTimestamp hs1 m1 s1 ms1 hd hne1 hdig1,
    parseTime_renderTimestamp hs2 m2 s2 ms2 hd hne2 hdig2]

theorem wellFormedBlock_no_cr {hs1 : Str} {m1 s1 ms1 : ℕ} {hs2 : Str} {m2 s2 ms2 : ℕ}
    {d : Char} {text : Str} (hd : d = ',' ∨ d = '.')
    (hdig1 : ∀ c ∈ hs1, isDigitChar c = true) (hdig2 : ∀ c ∈ hs2, isDigitChar c = true)
    (hcr : '\r' ∉ text) :
    '\r' ∉ wellFormedBlock hs1 m1 s1 ms1 hs2 m2 s2 ms2 d text := by
  intro hc
  simp only [wellFormedBlock, List.mem_append, List.mem_cons] at hc
  rcases hc with hc | hc | hc
  · exact timeRangeLine_no_cr hd hdig1 hdig2 hc
  · exact absurd hc (by decide)
  · exact hcr hc

/-- **C1.** For every well-formed subtitle block whose time line has the
form `H:MM:SS,mmm --> H:MM:SS,mmm` (comma or dot before the milliseconds;
the hour fields `hs1`, `hs2` are arbitrary non-empty digit strings, so
both zero-padded `00` and unpadded `0` hours are covered), `parseSRT`
produces exactly one cue whose start and end equal
`h*3600 + m*60 + s + ms/1000` for the respective sides (`h` the numeric
value of the hour field), and whose text is the remaining lines joined
with newlines with markup-tag substrings (`<...>`) stripped.  The text
must be a genuine cue body: non-empty, no blank line, not starting with a
newline, not ending in whitespace, and free of carriage returns. -/
theorem parseSRT_wellFormedBlock
    (hs1 : Str) (m1 s1 ms1 : ℕ) (hs2 : Str) (m2 s2 ms2 : ℕ) (d : Char) (text : Str)
    (hd : d = ',' ∨ d = '.')
    (hne1 : hs1 ≠ []) (hdig1 : ∀ c ∈ hs1, isDigitChar c = true)
    (hne2 : hs2 ≠ []) (hdig2 : ∀ c ∈ hs2, isDigitChar c = true)
    (_hm1 : m1 < 100) (_hsec1 : s1 < 100) (_hms1 : ms1 < 1000)
    (_hm2 : m2 < 100) (_hsec2 : s2 < 100) (_hms2 : ms2 < 1000)
    (htne : text ≠ [])
    (hnn : containsSub ['\n', '\n'] text = false)
    (hhead : text.head? ≠ some '\n')
    (hlast : ∀ c, text.getLast? = some c → isWS c = false)
    (hcr : '\r' ∉ text) :
    parseSRT (wellFormedBlock hs1 m1 s1 ms1 hs2 m2 s2 ms2 d text)
      = [⟨(digitsToNat hs1 : ℚ) * 3600 + (m1 : ℚ) * 60 + (s1 : ℚ) + (ms1 : ℚ) / 1000,
          (digitsToNat hs2 : ℚ) * 3600 + (m2 : ℚ) * 60 + (s2 : ℚ) + (ms2 : ℚ) / 1000,
          stripTags text⟩] := by
  unfold parseSRT
  rw [normalizeNewlines_no_cr (wellFormedBlock_no_cr hd hdig1 hdig2 hcr)]
  unfold splitOnNN
  rw [splitOn2_eq_self (by
    unfold wellFormedBlock
    exact containsSub_nn_block (timeRangeLine_no_nl hd hdig1 hdig2) hhead hnn)]
  simp only [List.map_cons, List.map_nil, List.flatten_cons, List.flatten_nil, List.append_nil]
  exact parseBlockCues_wellFormedBlock hs1 m1 s1 ms1 hs2 m2 s2 ms2 hd hne1 hdig1 hne2 hdig2
    htne hlast

/-- **C1 witness.**  The spec's exact example block
`"00:01:02,500 --> 00:01:05,000\nHello"` (zero-padded hours): the
rendered block is literally that string, and the theorem instance yields
the single cue at 62.5–65 seconds with text `Hello` (tag-free, so
stripping is the identity). -/
theorem parseSRT_wellFormedBlock_witness :
    wellFormedBlock (("00").toList) 1 2 500 (("00").toList) 1 5 0 ',' (("Hello").toList)
      = ("00:01:02,500 --> 00:01:05,000\nHello").toList
    ∧ parseSRT (wellFormedBlock (("00").toList) 1 2 500 (("00").toList) 1 5 0 ','
        (("Hello").toList))
      = [⟨(digitsToNat (("00").toList) : ℚ) * 3600 + (1 : ℚ) * 60 + (2 : ℚ) + (500 : ℚ) / 1000,
          (digitsToNat (("00").toList) : ℚ) * 3600 + (1 : ℚ) * 60 + (5 : ℚ) + (0 : ℚ) / 1000,
          stripTags (("Hello").toList)⟩]
    ∧ digitsToNat (("00").toList) = 0
    ∧ stripTags (("Hello").toList) = ("Hello").toList :=
  ⟨by decide,
   parseSRT_wellFormedBlock (("00").toList) 1 2 500 (("00").toList) 1 5 0 ',' (("Hello").toList)
     (by decide) (by decide) (by decide) (by decide) (by decide) (by decide) (by decide)
     (by decide) (by decide) (by decide) (by decide) (by decide) (by decide) (by decide)
     (by decide) (by decide),
   by decide, by decide⟩

/-- A string without a blank line or carriage return is one single block. -/
theorem parseSRT_single_block {b : Str} (hnn : containsSub ['\n', '\n'] b = false)
    (hcr : '\r' ∉ b) : parseSRT b = parseBlockCues b := by
  unfold parseSRT splitOnNN
  rw [normalizeNewlines_no_cr hcr, splitOn2_eq_self hnn]
  simp

/-- **C2.** `parseSRT` never throws (it is a total function here), the
empty input yields no cues, splitting at a blank line decomposes the
parse, and a malformed block — fewer than two lines, a time line without
the `-->` separator, or a timestamp that does not parse as a number —
contributes zero cues, leaving cues of adjacent blocks intact. -/
theorem parseSRT_error_handling :
    parseSRT [] = []
    ∧ (∀ a b : Str, containsSub ['\n', '\n'] a = false → a.getLast? ≠ some '\n' →
        '\r' ∉ a → '\r' ∉ b →
        parseSRT (a ++ '\n' :: '\n' :: b) = parseSRT a ++ parseSRT b)
    ∧ (∀ b : Str, containsSub ['\n', '\n'] b = false → '\r' ∉ b →
        ((blockLines b).length < 2
          ∨ containsSub ['-', '-', '>'] (blockTimeLine b) = false
          ∨ parseTime (blockStartStr b) = none
          ∨ parseTime (blockEndStr b) = none) →
        parseSRT b = []) := by
  refine ⟨by decide, ?_, ?_⟩
  · intro a b hnn hlast hcra hcrb
    have hcr : '\r' ∉ a ++ '\n' :: '\n' :: b := by
      intro hc
      simp only [List.mem_append, List.mem_cons] at hc
      rcases hc with hc | hc | hc | hc
      · exact hcra hc
      · exact absurd hc (by decide)
      · exact absurd hc (by decide)
      · exact hcrb hc
    unfold parseSRT splitOnNN
    rw [normalizeNewlines_no_cr hcr, normalizeNewlines_no_cr hcra, normalizeNewlines_no_cr hcrb]
    rw [splitOn2_append b hnn (fun hl => absurd hl hlast), splitOn2_eq_self hnn]
    simp
  · intro b hnn hcr hmal
    rw [parseSRT_single_block hnn hcr]
    unfold parseBlockCues
    rcases hmal with hmal | hmal | hmal | hmal
    · rw [if_pos hmal]
    · by_cases hlen : (blockLines b).length < 2
      · rw [if_pos hlen]
      · rw [if_neg hlen, if_pos hmal]
    · by_cases hlen : (blockLines b).length < 2
      · rw [if_pos hlen]
      · rw [if_neg hlen]
        by_cases harr : containsSub ['-', '-', '>'] (blockTimeLine b) = false
        · rw [if_pos harr]
        · rw [if_neg harr, hmal]
    · by_cases hlen : (blockLines b).length < 2
      · rw [if_pos hlen]
      · rw [if_neg hlen]
        by_cases harr : containsSub ['-', '-', '>'] (blockTimeLine b) = false
        · rw [if_pos harr]
        · rw [if_neg harr, hmal]
          cases parseTime (blockStartStr b) <;> rfl

/-- **C2 witness.**  `"junk"` is a malformed single-line block: alone it
yields no cues, and prepended (blank-line separated) to a well-formed
block it leaves that block's cues intact. -/
theorem parseSRT_error_handling_witness :
    parseSRT (("junk").toList) = []
    ∧ parseSRT (("junk").toList ++ '\n' :: '\n' :: ("1\n00:00:01,000 --> 00:00:02,000\nHi").toList)
      = parseSRT (("junk").toList)
          ++ parseSRT (("1\n00:00:01,000 --> 00:00:02,000\nHi").toList) :=
  ⟨parseSRT_error_handling.2.2 _ (by decide) (by decide) (Or.inl (by decide)),
   parseSRT_error_handling.2.1 _ _ (by decide) (by decide) (by decide) (by decide)⟩

/-! ### Chapter navigation -/

/-- **C3.** For a present chapter list and a known (non-zero) duration, the
derived active chapter list is a permutation of the chapters with
`startTime < duration` (so it contains exactly those, with multiplicity),
is sorted ascending by `startTime`, and membership is exactly
"in the original list and starting before the duration". -/
theorem activeChapters_spec (cs : List Chapter) (dur : ℚ) (hd : dur ≠ 0) :
    List.Perm (activeChapters (some cs) dur) (cs.filter (fun c => decide (c.startTime < dur)))
    ∧ List.Pairwise chLE (activeChapters (some cs) dur)
    ∧ ∀ c : Chapter, c ∈ activeChapters (some cs) dur ↔ c ∈ cs ∧ c.startTime < dur := by
  simp only [activeChapters]
  rw [if_neg hd]
  refine ⟨List.perm_insertionSort chLE _, List.sorted_insertionSort chLE _, ?_⟩
  intro c
  rw [List.mem_insertionSort, List.mem_filter]
  simp

/-- **C3 witness.**  Chapters starting at `[0, 60, 180]` with duration
`100`: the active list is exactly the chapters starting at `[0, 60]`. -/
theorem activeChapters_spec_witness :
    (100 : ℚ) ≠ 0
    ∧ (∀ c : Chapter,
        c ∈ activeChapters
            (some [⟨("A").toList, 0, none⟩, ⟨("B").toList, 60, none⟩, ⟨("C").toList, 180, none⟩])
            100
          ↔ c ∈ [⟨("A").toList, 0, none⟩, ⟨("B").toList, 60, none⟩, ⟨("C").toList, 180, none⟩]
              ∧ c.startTime < 100)
    ∧ activeChapters
          (some [⟨("A").toList, 0, none⟩, ⟨("B").toList, 60, none⟩, ⟨("C").toList, 180, none⟩])
          100
        = [⟨("A").toList, 0, none⟩, ⟨("B").toList, 60, none⟩] :=
  ⟨by decide,
   (activeChapters_spec [⟨("A").toList, 0, none⟩, ⟨("B").toList, 60, none⟩,
      ⟨("C").toList, 180, none⟩] 100 (by decide)).2.2,
   by decide⟩

theorem skipNextTarget_eq (chs : List Chapter) (t : ℚ) :
    skipNextTarget chs t
      = (chs.find? (fun c => decide (t + 1 < c.startTime))).map (·.startTime) := by
  cases chs <;> simp [skipNextTarget]

/-- `find?` on the guard-band predicate returns a member that is past the
guard band and (for an ascending list) minimal among such chapters. -/
theorem find?_guard_min {t : ℚ} : ∀ {chs : List Chapter}, List.Pairwise chLE chs →
    ∀ {c : Chapter}, chs.find? (fun c => decide (t + 1 < c.startTime)) = some c →
      c ∈ chs ∧ t + 1 < c.startTime
        ∧ ∀ c' ∈ chs, t + 1 < c'.startTime → c.startTime ≤ c'.startTime := by
  intro chs
  induction chs with
  | nil => intro _ c hc; simp at hc
  | cons a rest ih =>
    intro hsort c hc
    obtain ⟨hhead, htail⟩ := List.pairwise_cons.mp hsort
    by_cases ha : t + 1 < a.startTime
    · rw [List.find?_cons_of_pos _ (by simpa)] at hc
      obtain rfl : a = c := by simpa using hc
      refine ⟨by simp, ha, ?_⟩
      intro c' hc' _
      rcases List.mem_cons.mp hc' with rfl | hc'
      · exact le_refl _
      · exact hhead c' hc'
    · rw [List.find?_cons_of_neg _ (by simpa using ha)] at hc
      obtain ⟨hmem, hgt, hmin⟩ := ih htail hc
      refine ⟨List.mem_cons_of_mem _ hmem, hgt, ?_⟩
      intro c' hc' hgt'
      rcases List.mem_cons.mp hc' with rfl | hc'
      · exact absurd hgt' ha
      · exact hmin c' hc' hgt'

/-- **C4.** For an ascending active chapter list, the next-chapter skip is
a no-op exactly when no chapter starts after `currentTime + 1` (the
1-second guard band), and any produced target is the start of the first —
hence minimal — chapter past the guard band, which is strictly greater
than `currentTime + 1`. -/
theorem skipNextTarget_spec (chs : List Chapter) (t : ℚ) (hsort : List.Pairwise chLE chs) :
    (skipNextTarget chs t = none ↔ ∀ c ∈ chs, c.startTime ≤ t + 1)
    ∧ ∀ x : ℚ, skipNextTarget chs t = some x →
        (∃ c ∈ chs, c.startTime = x ∧ t + 1 < x)
        ∧ ∀ c ∈ chs, t + 1 < c.startTime → x ≤ c.startTime := by
  constructor
  · rw [skipNextTarget_eq]
    simp [List.find?_eq_none, not_lt]
  · intro x hx
    rw [skipNextTarget_eq] at hx
    obtain ⟨c, hfind, hmap⟩ := Option.map_eq_some'.mp hx
    obtain ⟨hmem, hgt, hmin⟩ := find?_guard_min hsort hfind
    subst hmap
    exact ⟨⟨c, hmem, rfl, hgt⟩, fun c' hc' hgt' => hmin c' hc' hgt'⟩

/-- **C4 witness.**  The spec's boundary example: chapters at `60` and
`90`, `currentTime = 59.5`.  The theorem instance shows any target must
exceed `60.5` (so the chapter at `60` itself is never the target). -/
theorem skipNextTarget_spec_witness :
    (skipNextTarget [⟨("B").toList, 60, none⟩, ⟨("C").toList, 90, none⟩] (59.5 : ℚ) = none
        ↔ ∀ c ∈ [(⟨("B").toList, 60, none⟩ : Chapter), ⟨("C").toList, 90, none⟩],
            c.startTime ≤ (59.5 : ℚ) + 1)
    ∧ ∀ x : ℚ,
        skipNextTarget [⟨("B").toList, 60, none⟩, ⟨("C").toList, 90, none⟩] (59.5 : ℚ) = some x →
        (∃ c ∈ [(⟨("B").toList, 60, none⟩ : Chapter), ⟨("C").toList, 90, none⟩],
            c.startTime = x ∧ (59.5 : ℚ) + 1 < x)
        ∧ ∀ c ∈ [(⟨("B").toList, 60, none⟩ : Chapter), ⟨("C").toList, 90, none⟩],
            (59.5 : ℚ) + 1 < c.startTime → x ≤ c.startTime :=
  skipNextTarget_spec [⟨("B").toList, 60, none⟩, ⟨("C").toList, 90, none⟩] (59.5 : ℚ) (by decide)

theorem lastIdxLe_none {chs : List Chapter} {t : ℚ} :
    lastIdxLe chs t = none ↔ ∀ c ∈ chs, t < c.startTime := by
  induction chs with
  | nil => simp [lastIdxLe]
  | cons c rest ih =>
    simp only [lastIdxLe]
    cases h : lastIdxLe rest t with
    | some j =>
      have hrest : ¬ ∀ c' ∈ rest, t < c'.startTime := by
        intro hall
        rw [ih.mpr hall] at h
        exact Option.noConfusion h
      constructor
      · intro hx; exact absurd hx (by simp)
      · intro hall
        exact absurd (fun c' hc' => hall c' (List.mem_cons_of_mem _ hc')) hrest
    | none =>
      by_cases hcle : c.startTime ≤ t
      · rw [if_pos hcle]
        constructor
        · intro hx; exact absurd hx (by simp)
        · intro hall
          exact absurd (hall c (by simp)) (not_lt.mpr hcle)
      · rw [if_neg hcle]
        simp only [List.mem_cons, true_iff]
        intro c' hc'
        rcases hc' with rfl | hc'
        · exact not_le.mp hcle
        · exact ih.mp h c' hc'

theorem lastIdxLe_eq_some {t : ℚ} : ∀ {chs : List Chapter} (i : ℕ), i < chs.length →
    (chs.getD i default).startTime ≤ t →
    (∀ j, i < j → j < chs.length → t < (chs.getD j default).startTime) →
    lastIdxLe chs t = some i := by
  intro chs
  induction chs with
  | nil => intro i hi _ _; simp at hi
  | cons c rest ih =>
    intro i hi hle hgt
    cases i with
    | zero =>
      have hrestnone : lastIdxLe rest t = none := by
        rw [lastIdxLe_none]
        intro c' hc'
        obtain ⟨j, hj, rfl⟩ := List.mem_iff_getElem.mp hc'
        have := hgt (j + 1) (by omega) (by simp; omega)
        rw [List.getD_cons_succ] at this
        rwa [List.getD_eq_getElem?_getD, List.getElem?_eq_getElem hj, Option.getD_some] at this
      simp only [lastIdxLe, hrestnone]
      rw [if_pos (by simpa using hle)]
    | succ i' =>
      have hrec := ih i' (by simpa using hi) (by simpa [List.getD_cons_succ] using hle)
        (fun j hj hjlen => by
          have := hgt (j + 1) (by omega) (by simp; omega)
          rwa [List.getD_cons_succ] at this)
      simp only [lastIdxLe, hrec]

/-- **C5.** For a non-empty ascending active chapter list: with no current
chapter (every chapter starts after `currentTime`) the skip target is `0`;
with current chapter at index `i` (start `≤ currentTime`, all later
chapters start after `currentTime`), the target is the previous chapter's
start — or `0` when `i = 0` — if within 3 seconds of the current
chapter's start, and the current chapter's own start otherwise. -/
theorem skipPrevTarget_spec (chs : List Chapter) (t : ℚ)
    (hne : chs ≠ []) (hsort : List.Pairwise chLE chs) :
    ((∀ c ∈ chs, t < c.startTime) → skipPrevTarget chs t = some 0)
    ∧ ∀ i, i < chs.length →
        (chs.getD i default).startTime ≤ t →
        (∀ j, i < j → j < chs.length → t < (chs.getD j default).startTime) →
        skipPrevTarget chs t
          = some (if t - (chs.getD i default).startTime < 3
              then (if i = 0 then 0 else (chs.getD (i - 1) default).startTime)
              else (chs.getD i default).startTime) := by
  have hempty : chs.isEmpty = false := by
    cases chs with
    | nil => exact absurd rfl hne
    | cons a l => rfl
  constructor
  · intro hall
    unfold skipPrevTarget
    rw [if_neg (by simp [hempty]), lastIdxLe_none.mpr hall]
  · intro i hi hle hgt
    unfold skipPrevTarget
    rw [if_neg (by simp [hempty]), lastIdxLe_eq_some i hi hle hgt]
    simp only []
    by_cases h3 : t - (chs.getD i default).startTime < 3
    · rw [if_pos h3, if_pos h3]
      by_cases hi0 : i = 0
      · subst hi0
        rw [if_neg (by omega), if_pos rfl]
      · rw [if_pos (by omega), if_neg hi0]
    · rw [if_neg h3, if_neg h3]

/-- **C5 witness.**  Chapters at `0` and `60`, `currentTime = 61` (one
second into the second chapter, inside the 3-second guard): the skip
target is the previous chapter's start `0`, per the theorem's formula
with `i = 1`. -/
theorem skipPrevTarget_spec_witness :
    skipPrevTarget [⟨("A").toList, 0, none⟩, ⟨("B").toList, 60, none⟩] (61 : ℚ)
      = some (if (61 : ℚ) - ([(⟨("A").toList, 0, none⟩ : Chapter), ⟨("B").toList, 60, none⟩].getD 1
            default).startTime < 3
          then (if 1 = 0 then 0
            else ([(⟨("A").toList, 0, none⟩ : Chapter), ⟨("B").toList, 60, none⟩].getD 0
              default).startTime)
          else ([(⟨("A").toList, 0, none⟩ : Chapter), ⟨("B").toList, 60, none⟩].getD 1
            default).startTime) :=
  (skipPrevTarget_spec [⟨("A").toList, 0, none⟩, ⟨("B").toList, 60, none⟩] 61
      (by decide) (by decide)).2 1 (by decide) (by decide)
    (fun j hj hjlen => by simp only [List.length_cons, List.length_nil] at hjlen; omega)

/-- **C10** (implicit).  Whenever the active chapter list is empty —
no chapter metadata, or duration still `0`/unknown — both chapter skips
are no-ops (no seek is performed); in particular the previous-chapter
skip does not seek to `0`. -/
theorem chapterSkips_noop_when_empty :
    (∀ t : ℚ, skipNextTarget [] t = none)
    ∧ (∀ t : ℚ, skipPrevTarget [] t = none)
    ∧ (∀ d : ℚ, activeChapters none d = [])
    ∧ (∀ cs : Option (List Chapter), activeChapters cs 0 = [])
    ∧ ∀ (cs : Option (List Chapter)) (t : ℚ),
        skipNextTarget (activeChapters cs 0) t = none
        ∧ skipPrevTarget (activeChapters cs 0) t = none := by
  have hzero : ∀ cs, activeChapters cs 0 = [] := by
    intro cs
    cases cs with
    | none => rfl
    | some l => simp [activeChapters]
  exact ⟨fun _ => rfl, fun _ => rfl, fun _ => rfl, hzero,
    fun cs t => by rw [hzero]; exact ⟨rfl, rfl⟩⟩

/-! ### Error handler, overlays, subtitles, teardown -/

/-- **C6.** Error code 1 (abort) never mutates state; every other code
sets the mapped message and forces `isPlaying = false` and
`isBuffering = false`; the messages for codes 2, 3 and 4 are pairwise
distinct (and differ from the unknown-failure message); any code outside
`{1, 2, 3, 4}` yields the unknown-failure message. -/
theorem onError_spec :
    (∀ st : EngineFlags, onError 1 st = st)
    ∧ (∀ (code : ℤ) (st : EngineFlags), code ≠ 1 →
        (onError code st).error = some (mediaErrorMessage code)
        ∧ (onError code st).isPlaying = false ∧ (onError code st).isBuffering = false)
    ∧ (mediaErrorMessage 2 ≠ mediaErrorMessage 3 ∧ mediaErrorMessage 2 ≠ mediaErrorMessage 4
        ∧ mediaErrorMessage 3 ≠ mediaErrorMessage 4
        ∧ mediaErrorMessage 2 ≠ unknownFailureMessage
        ∧ mediaErrorMessage 3 ≠ unknownFailureMessage
        ∧ mediaErrorMessage 4 ≠ unknownFailureMessage)
    ∧ ∀ code : ℤ, code ≠ 1 → code ≠ 2 → code ≠ 3 → code ≠ 4 →
        mediaErrorMessage code = unknownFailureMessage := by
  refine ⟨fun st => by simp [onError], ?_, ?_, ?_⟩
  · intro code st hc
    simp [onError, hc]
  · refine ⟨?_, ?_, ?_, ?_, ?_, ?_⟩ <;> decide
  · intro code h1 h2 h3 h4
    simp [mediaErrorMessage, h2, h3, h4]

/-- **C6 witness.**  Decode error (code 3) from a playing, buffering
state: the decode message is set and both flags are forced off. -/
theorem onError_spec_witness :
    (onError 3 ⟨none, true, true⟩).error = some (mediaErrorMessage 3)
    ∧ (onError 3 ⟨none, true, true⟩).isPlaying = false
    ∧ (onError 3 ⟨none, true, true⟩).isBuffering = false :=
  onError_spec.2.1 3 ⟨none, true, true⟩ (by decide)

/-- **C7 counterexample.**  The claim "every operation that opens an
overlay panel closes the other two — including the subtitle-import path"
is false: with only the stats panel open (a legal, at-most-one-open
state), the subtitle-import path opens settings without closing stats,
leaving two panels open. -/
theorem overlayExclusive_cex :
    openCount ⟨true, false, false⟩ ≤ 1
    ∧ ¬ openCount (subtitleImportPanels ⟨true, false, false⟩) ≤ 1 := by
  decide

/-- **C7 amended.**  The three overlay toggle buttons each close the other
two panels, so each leaves at most one panel open from any state; the
subtitle-import path only opens the settings panel, so it preserves
exclusivity only when the stats and chapter-list panels are closed. -/
theorem overlayToggles_exclusive :
    (∀ s : OverlayState, openCount (chapterListToggle s) ≤ 1)
    ∧ (∀ s : OverlayState, openCount (statsToggle s) ≤ 1)
    ∧ (∀ s : OverlayState, openCount (settingsToggle s) ≤ 1)
    ∧ ∀ s : OverlayState, s.showStats = false → s.showChapterList = false →
        openCount (subtitleImportPanels s) ≤ 1 := by
  refine ⟨?_, ?_, ?_, ?_⟩ <;>
    · intro s
      obtain ⟨a, b, c⟩ := s
      cases a <;> cases b <;> cases c <;> simp [openCount, chapterListToggle, statsToggle,
        settingsToggle, subtitleImportPanels]

/-- **C7 amended witness.**  From the all-closed state the subtitle-import
path leaves at most one panel open. -/
theorem overlayToggles_exclusive_witness :
    openCount (subtitleImportPanels ⟨false, false, false⟩) ≤ 1 :=
  overlayToggles_exclusive.2.2.2 ⟨false, false, false⟩ rfl rfl

/-- **C8.** At the failing input — a session with the diagnostics loop
scheduled and an auto-hide controls timer pending — teardown cancels the
animation-frame loop but leaves the timer pending (no cleanup clears
`controlsTimeoutRef`), and the stale callback still mutates player state
(`showControls`) after teardown.  This contradicts the claim that every
pending auto-hide timer is cleared on teardown. -/
theorem unmountCleanup_leaves_timer :
    (unmountCleanup ⟨true, true, true⟩).statsLoopScheduled = false
    ∧ (unmountCleanup ⟨true, true, true⟩).controlsTimerPending = true
    ∧ controlsTimerFire (unmountCleanup ⟨true, true, true⟩) ≠ unmountCleanup ⟨true, true, true⟩
    ∧ (controlsTimerFire (unmountCleanup ⟨true, true, true⟩)).showControls = false := by
  decide

/-- **C9.** After importing a subtitle file into a player with no subtitle
tracks (the initial state: `mockSubs = []`), toggling subtitles off and
back on restores the entire subtitle state — the imported track stays
selected and the active cue set (never touched by the toggles) equals the
cue set active before toggling off. -/
theorem subtitleRoundTrip (s : SubtitleState) (content : Str) (fileName : String) (now : ℕ)
    (hempty : s.subtitleTracks = []) :
    toggleSubtitles (toggleSubtitles (handleSubtitleFileLoaded content fileName now s))
      = handleSubtitleFileLoaded content fileName now s := by
  have hid : uploadTrackId now ≠ "off" := by
    intro he
    have hlen := congrArg String.length he
    rw [uploadTrackId, String.length_append] at hlen
    have h7 : ("upload-" : String).length = 7 := rfl
    have h3 : ("off" : String).length = 3 := rfl
    omega
  unfold handleSubtitleFileLoaded toggleSubtitles
  simp [hempty, hid]

/-- **C9 witness.**  Importing into the pristine subtitle state and
toggling twice is the identity. -/
theorem subtitleRoundTrip_witness :
    toggleSubtitles (toggleSubtitles
        (handleSubtitleFileLoaded [] ("subs.srt") 0 ⟨[], "off", []⟩))
      = handleSubtitleFileLoaded [] ("subs.srt") 0 ⟨[], "off", []⟩ :=
  subtitleRoundTrip ⟨[], "off", []⟩ [] ("subs.srt") 0 rfl

end Nova
